import Mathlib

/-!
# ICMP probe engine: checksum, packet builders, ping and traceroute sessions

A shallow embedding of `src/ping.c`, `src/traceroute.c` and `src/traceroute.h`.

Conventions of the embedding.

* A byte buffer is a `List Nat` whose elements are bytes (`IsBytes`); the C
  argument `len` is the length of the list.
* `unsigned int` is a `Nat` reduced modulo `2 ^ 32` after every addition,
  `unsigned short` a `Nat` below `2 ^ 16`.
* The byte order of the machine is a parameter `be` (`true` for a big-endian
  machine, `false` for a little-endian one): the code reads and writes 16-bit
  words in native order.
* `double` is IEEE 754 binary64 with round to nearest, ties to even: every
  operation returns the rounding of the exact result, and no two operations are
  fused.
* The network is an oracle that tells, for every probe, what `sendto`,
  `select`/`poll` and `recvfrom` do.
-/

namespace IcmpProbe

/-! ## Checksum (`ping.c` 11-26, `traceroute.c` 12-28) -/

/-- Every element of the buffer is a byte. -/
def IsBytes (b : List Nat) : Prop := ∀ x ∈ b, x < 256

instance (b : List Nat) : Decidable (IsBytes b) := by
  unfold IsBytes; infer_instance

/-- The value of `*(unsigned short *)p` when the two bytes at `p` are `b0`, `b1`. -/
def word16 (be : Bool) (b0 b1 : Nat) : Nat :=
  if be then b0 * 256 + b1 else b0 + b1 * 256

/-- The loop `for (sum = 0; len > 1; len -= 2) sum += *buf++;` followed by
`if (len == 1) sum += *(unsigned char *)buf;`, started with accumulator `sum`;
`sum` is an `unsigned int`. -/
def sumWords (be : Bool) : List Nat → Nat → Nat
  | b0 :: b1 :: rest, sum => sumWords be rest ((sum + word16 be b0 b1) % 2 ^ 32)
  | [b0], sum => (sum + b0) % 2 ^ 32
  | [], sum => sum

/-- The two folding statements `sum = (sum >> 16) + (sum & 0xFFFF); sum += (sum >> 16);`. -/
def fold32 (sum : Nat) : Nat :=
  let sum1 := (sum / 65536 + sum % 65536) % 2 ^ 32
  (sum1 + sum1 / 65536) % 2 ^ 32

/-- The statement `result = ~sum;` with `result` an `unsigned short`. -/
def complement16 (sum : Nat) : Nat := (2 ^ 32 - 1 - sum) % 65536

/-- The function `checksum(b, len)` where `b` holds exactly `len` bytes. -/
def checksum (be : Bool) (b : List Nat) : Nat :=
  complement16 (fold32 (sumWords be b 0))

/-- The two bytes that storing the `unsigned short` value `v` writes to memory. -/
def store16 (be : Bool) (v : Nat) : List Nat :=
  if be then [v / 256 % 256, v % 256] else [v % 256, v / 256 % 256]

/-- Writes the `unsigned short` value `v` into bytes 2-3 of the buffer (the
checksum field of an ICMP header). -/
def setChecksumField (be : Bool) (b : List Nat) (v : Nat) : List Nat :=
  b.take 2 ++ store16 be v ++ b.drop 4

/-! ### The checksum as the spec words it -/

/-- The 16-bit words of a buffer in native order, a trailing odd byte being a
zero-extended word. -/
def words (be : Bool) : List Nat → List Nat
  | b0 :: b1 :: rest => word16 be b0 b1 :: words be rest
  | [b0] => [b0]
  | [] => []

/-- One's-complement addition of two 16-bit values: the carry out of bit 15 is
added back in (end-around carry). -/
def endAroundAdd (a w : Nat) : Nat := (a + w) % 65536 + (a + w) / 65536

/-- The 16-bit end-around-carry sum of a list of words. -/
def endAroundSum (ws : List Nat) : Nat := ws.foldl endAroundAdd 0

/-- The value in `0 .. 0xFFFF` that a natural number folds to under end-around
carry: `0` for `0`, otherwise the representative of `t` modulo `0xFFFF` in
`1 .. 0xFFFF`. -/
def foldedValue (t : Nat) : Nat := if t = 0 then 0 else (t - 1) % 65535 + 1

/-! ## Echo packets (`traceroute.h` 6-13, `<netinet/ip_icmp.h>`, `<netinet/icmp6.h>`) -/

/-- The constant `ICMP_ECHO` of `<netinet/ip_icmp.h>`. -/
def ICMP_ECHO : Nat := 8

/-- The constant `ICMP6_ECHO_REQUEST` of `<netinet/icmp6.h>`. -/
def ICMP6_ECHO_REQUEST : Nat := 128

/-- The constant `MAX_TTL` of `traceroute.h`. -/
def MAX_TTL : Nat := 30

/-- The constant `PACKET_SIZE` of `traceroute.h`. -/
def PACKET_SIZE : Nat := 64

/-- The value of `sizeof(struct icmphdr)`. -/
def ICMPHDR_SIZE : Nat := 8

/-- An echo packet: `struct icmphdr` (or `struct icmp6_hdr`, which has the same
layout: type and code one byte each, then checksum, identifier and sequence
number as 16-bit fields) followed by the `data` array. -/
structure EchoPacket where
  type : Nat
  code : Nat
  checksum : Nat
  id : Nat
  sequence : Nat
  data : List Nat
  deriving DecidableEq

/-- The bytes of the packet in memory, as `checksum` and `sendto` see them. -/
def EchoPacket.bytes (be : Bool) (p : EchoPacket) : List Nat :=
  [p.type, p.code] ++ store16 be p.checksum ++ store16 be p.id ++ store16 be p.sequence ++ p.data

/-- The packet after `memset(&packet, 0, sizeof(packet))` in `traceroute`
(`struct icmp_packet` of `traceroute.h`). -/
def zeroPacket : EchoPacket :=
  { type := 0, code := 0, checksum := 0, id := 0, sequence := 0,
    data := List.replicate (PACKET_SIZE - ICMPHDR_SIZE) 0 }

/-- The packet built in `traceroute` (lines 58-64) for attempt `i` at `ttl`;
`pid` is the value of `getpid()`. -/
def traceroutePacket (be : Bool) (pid ttl i : Nat) : EchoPacket :=
  let packet := zeroPacket
  let packet := { packet with type := ICMP_ECHO % 256 }
  let packet := { packet with id := pid % 65536 }
  let packet := { packet with sequence := (ttl * 3 + i) % 65536 }
  { packet with checksum := checksum be (packet.bytes be) }

/-- Modelled from the spec: `struct icmp_packet` and `struct icmp6_packet` of
`ping.h`, a header that is not among the sources. Section 4.2 describes them as
the echo header followed by a data buffer; `ping.c` names the members
`icmp_hdr` (or `icmp6_hdr`) and `data`. The size of the buffer is the length of
`data`. -/
abbrev PingPacket := EchoPacket

/-- The packet built by the IPv4 branch of `send_ping` (lines 65-72). `uninit`
is the indeterminate content of the local variable `packet` on entry. -/
def pingPacket4 (be : Bool) (uninit : PingPacket) (pid seq_num : Nat) : PingPacket :=
  let packet := { uninit with type := ICMP_ECHO % 256 }
  let packet := { packet with code := 0 }
  let packet := { packet with id := pid % 65536 }
  let packet := { packet with sequence := seq_num % 65536 }
  let packet := { packet with data := List.replicate packet.data.length 0 }
  let packet := { packet with checksum := 0 }
  { packet with checksum := checksum be (packet.bytes be) }

/-- The packet built by the IPv6 branch of `send_ping` (lines 51-57). `uninit`
is the indeterminate content of the local variable `packet6` on entry. The
branch assigns type, identifier, sequence number, data and checksum; it has no
assignment to `icmp6_code`. -/
def pingPacket6 (be : Bool) (uninit : PingPacket) (pid seq_num : Nat) : PingPacket :=
  let packet6 := { uninit with type := ICMP6_ECHO_REQUEST % 256 }
  let packet6 := { packet6 with id := pid % 65536 }
  let packet6 := { packet6 with sequence := seq_num % 65536 }
  let packet6 := { packet6 with data := List.replicate packet6.data.length 0 }
  let packet6 := { packet6 with checksum := 0 }
  { packet6 with checksum := checksum be (packet6.bytes be) }

/-! ## Traceroute session (`traceroute.c` 31-118) -/

/-- What the network does with one traceroute probe. -/
inductive ProbeOutcome where
  /-- The call `sendto(...)` returns a value `<= 0`. -/
  | sendFail
  /-- The call `select(...)` returns a value `<= 0` (timeout or error). -/
  | notReady
  /-- The call `recvfrom(...)` returns a value `<= 0`. -/
  | recvFail
  /-- A datagram is received; `addr` is `reply_addr.sin_addr.s_addr`. -/
  | reply (addr : Nat)
  deriving DecidableEq

/-- The outcome of attempt `i` at hop `ttl`. A session probes every pair
`(ttl, i)` at most once and one probe at a time, so a function of the pair
describes any behaviour of the network during one session. -/
abbrev Transport := Nat → Nat → ProbeOutcome

/-- The observable actions of a traceroute session. The numbers `ttl` and `i`
carried by `sendto` and `addr` tell at which hop and attempt the action
happens. -/
inductive TrEvent where
  /-- The output of `printf("%2d ", ttl)`. -/
  | hop (ttl : Nat)
  /-- The call `sendto(sockfd, &packet, ...)` while the socket TTL is `ttl`. -/
  | sendto (ttl i : Nat) (packet : EchoPacket)
  /-- The output of `printf("* ")`. -/
  | star
  /-- The output of `printf("%s ", hop_ip)`. -/
  | addr (ttl i : Nat) (a : Nat)
  /-- The output of `printf("%.3fms ", elapsed_time)`. -/
  | time
  /-- The output of `printf("\nReached destination: %s\n", destination)`. -/
  | reached
  /-- The output of `printf("\n")` that ends a hop. -/
  | newline
  /-- The output of `printf("Destination unreachable.\n")`. -/
  | unreachable
  deriving DecidableEq

/-- The loop `for (int i = 0; i < 3; i++)` of `traceroute` from index `i` with
`n` iterations left. Returns the actions and whether the function returned
from inside the loop (line 106). The variables `received_replies` and
`hop_ip` influence no action other than the print at line 96 and are not
kept. -/
def probeLoop (be : Bool) (tr : Transport) (pid dest ttl : Nat) :
    Nat → Nat → List TrEvent × Bool
  | 0, _ => ([], false)
  | n + 1, i =>
    let packet := traceroutePacket be pid ttl i
    let rest := probeLoop be tr pid dest ttl n (i + 1)
    match tr ttl i with
    | .sendFail => (.sendto ttl i packet :: .star :: rest.1, rest.2)
    | .notReady => (.sendto ttl i packet :: .star :: rest.1, rest.2)
    | .recvFail => (.sendto ttl i packet :: rest.1, rest.2)
    | .reply a =>
      let printed := .sendto ttl i packet :: (if i = 0 then [.addr ttl i a] else []) ++ [.time]
      if a = dest ∧ i = 2 then (printed ++ [.reached], true)
      else (printed ++ rest.1, rest.2)

/-- The loop `for (int ttl = 1; ttl <= MAX_TTL; ttl++)` from `ttl` with `n`
iterations left, followed by the final print. -/
def ttlLoop (be : Bool) (tr : Transport) (pid dest : Nat) : Nat → Nat → List TrEvent
  | 0, _ => [.unreachable]
  | n + 1, ttl =>
    let r := probeLoop be tr pid dest ttl 3 0
    if r.2 then .hop ttl :: r.1
    else .hop ttl :: r.1 ++ .newline :: ttlLoop be tr pid dest n (ttl + 1)

/-- The function `traceroute` after the socket and the destination address
`dest` are set up: the actions of the whole session. -/
def traceroute (be : Bool) (tr : Transport) (pid dest : Nat) : List TrEvent :=
  ttlLoop be tr pid dest MAX_TTL 1

/-- The probes of a session in order: the TTL and attempt index of each
`sendto`. -/
def probesOf : List TrEvent → List (Nat × Nat)
  | [] => []
  | .sendto ttl i _ :: l => (ttl, i) :: probesOf l
  | _ :: l => probesOf l

/-- The address prints of a session in order, each with its hop and attempt. -/
def addrPrints : List TrEvent → List (Nat × Nat × Nat)
  | [] => []
  | .addr ttl i a :: l => (ttl, i, a) :: addrPrints l
  | _ :: l => addrPrints l

/-- The three probes of hop `ttl`. -/
def hopProbes (ttl : Nat) : List (Nat × Nat) := [(ttl, 0), (ttl, 1), (ttl, 2)]

/-- The probes of the hops `ttl, ttl + 1, ..., ttl + n - 1`, three each. -/
def probesFrom : Nat → Nat → List (Nat × Nat)
  | 0, _ => []
  | n + 1, ttl => hopProbes ttl ++ probesFrom n (ttl + 1)

/-- The hop numbers printed by a session, in order. -/
def hopsOf : List TrEvent → List Nat
  | [] => []
  | .hop ttl :: l => ttl :: hopsOf l
  | _ :: l => hopsOf l

/-- The address print of hop `ttl` when the address is printed for attempt 0
only: the source address of the reply to attempt 0, if there is one. -/
def firstAttemptAddr (tr : Transport) (ttl : Nat) : List (Nat × Nat × Nat) :=
  match tr ttl 0 with
  | .reply a => [(ttl, 0, a)]
  | _ => []

/-- The transport of the spec's termination test: a distinct intermediate
address at each of the hops 1 to 5, and address 7 on every attempt from hop 6
on. -/
def sixHopTransport : Transport := fun ttl _ =>
  if ttl < 6 then .reply (100 + ttl) else .reply 7

/-- A transport under which no probe is ever answered. -/
def silentTransport : Transport := fun _ _ => .notReady

/-- A transport under which hop 1 gets no reply to attempt 0 and replies from
address 99 to attempts 1 and 2. -/
def lateReplyTransport : Transport := fun ttl i =>
  if ttl = 1 ∧ i = 0 then .notReady else .reply 99

/-- What the spec asks of an echo request of type `ty` for process id `pid` and
sequence number `seq`: the type, code 0, identifier and sequence number in
their 16-bit fields, an all-zero payload, and a checksum field equal to the
checksum of the packet with that field set to zero. -/
def IsEchoRequest (be : Bool) (ty pid seq : Nat) (p : EchoPacket) : Prop :=
  p.type = ty ∧ p.code = 0 ∧ p.id = pid % 65536 ∧ p.sequence = seq % 65536 ∧
    (∀ x ∈ p.data, x = 0) ∧
    p.checksum = checksum be ({ p with checksum := 0 }.bytes be)

/-- A content of the uninitialised local `packet6` whose code byte is `0xFF`. -/
def dirtyStack : PingPacket :=
  { type := 0, code := 255, checksum := 0, id := 0, sequence := 0, data := List.replicate 56 0 }

/-! ## The C type `double` (IEEE 754 binary64, round to nearest even) -/

/-- A value of type `double`: a finite value, an infinity or a NaN. A finite
value is kept as the rational number it denotes; the two zeros are not
distinguished. -/
inductive Double where
  | finite (v : ℚ)
  | posInf
  | negInf
  | nan
  deriving DecidableEq

/-- The number of halvings that bring `n` below 2, that is `⌊log₂ n⌋` for
`n ≥ 1`, when `fuel ≥ n`. -/
def bitLog : Nat → Nat → Nat
  | 0, _ => 0
  | fuel + 1, n => if n < 2 then 0 else bitLog fuel (n / 2) + 1

/-- The integer `⌊log₂ (a / d)⌋` for positive `a` and `d`. -/
def floorLog2 (a d : Nat) : Int :=
  let k : Int := (bitLog a a : Int) - (bitLog d d : Int)
  if d * 2 ^ k.toNat ≤ a * 2 ^ (-k).toNat then k else k - 1

/-- The `double` nearest to the rational `q`, ties going to the even
significand: the significand has 53 bits, the least exponent of the unit in the
last place is `-1074` (subnormal numbers), and a result of magnitude `2 ^ 1024`
or more is an infinity. -/
def roundNE (q : ℚ) : Double :=
  if q = 0 then .finite 0 else
    let a := q.num.natAbs
    let d := q.den
    let e : Int := max (floorLog2 a d - 52) (-1074)
    let num := a * 2 ^ (-e).toNat
    let den := d * 2 ^ e.toNat
    let m0 := num / den
    let r := num % den
    let m := if 2 * r < den then m0 else if den < 2 * r then m0 + 1
      else if m0 % 2 = 0 then m0 else m0 + 1
    let v : ℚ := mkRat (m * 2 ^ e.toNat) (2 ^ (-e).toNat)
    if (2 : ℚ) ^ 1024 ≤ v then (if 0 < q then .posInf else .negInf)
    else .finite (if 0 < q then v else -v)

/-- The rational `q` is the value of a `double`. -/
def IsDouble (q : ℚ) : Prop := roundNE q = .finite q

instance (q : ℚ) : Decidable (IsDouble q) := by
  unfold IsDouble; infer_instance

/-- The conversion of an integer to `double`. -/
def Double.ofInt (n : Int) : Double := roundNE n

/-- The unary minus of `double`. -/
def Double.neg : Double → Double
  | .finite a => .finite (-a)
  | .posInf => .negInf
  | .negInf => .posInf
  | .nan => .nan

/-- The operator `+` of `double`. -/
def Double.add : Double → Double → Double
  | .finite a, .finite b => roundNE (a + b)
  | .finite _, .posInf => .posInf
  | .finite _, .negInf => .negInf
  | .posInf, .finite _ => .posInf
  | .posInf, .posInf => .posInf
  | .negInf, .finite _ => .negInf
  | .negInf, .negInf => .negInf
  | _, _ => .nan

/-- The operator `-` of `double`. -/
def Double.sub (x y : Double) : Double := x.add y.neg

/-- The operator `*` of `double`. -/
def Double.mul : Double → Double → Double
  | .finite a, .finite b => roundNE (a * b)
  | .finite a, .posInf => if a = 0 then .nan else if 0 < a then .posInf else .negInf
  | .finite a, .negInf => if a = 0 then .nan else if 0 < a then .negInf else .posInf
  | .posInf, .finite b => if b = 0 then .nan else if 0 < b then .posInf else .negInf
  | .negInf, .finite b => if b = 0 then .nan else if 0 < b then .negInf else .posInf
  | .posInf, .posInf => .posInf
  | .posInf, .negInf => .negInf
  | .negInf, .posInf => .negInf
  | .negInf, .negInf => .posInf
  | _, _ => .nan

/-- The operator `/` of `double`; a zero divisor counts as `+0`. -/
def Double.div : Double → Double → Double
  | .finite a, .finite b =>
    if b = 0 then (if a = 0 then .nan else if 0 < a then .posInf else .negInf)
    else roundNE (a / b)
  | .finite _, .posInf => .finite 0
  | .finite _, .negInf => .finite 0
  | .posInf, .finite b => if 0 ≤ b then .posInf else .negInf
  | .negInf, .finite b => if 0 ≤ b then .negInf else .posInf
  | _, _ => .nan

/-- The operator `<` of `double`; a comparison with a NaN is false. -/
def Double.lt : Double → Double → Bool
  | .finite a, .finite b => decide (a < b)
  | .finite _, .posInf => true
  | .negInf, .finite _ => true
  | .negInf, .posInf => true
  | _, _ => false

/-! ## Ping session (`ping.c` 42-139 and 166-232) -/

/-- The constant `DBL_MAX` of `<float.h>` for IEEE double precision. -/
def DBL_MAX : ℚ := 2 ^ 1024 - 2 ^ 971

/-- The value of `elapsed_time` after lines 105-106, where `dsec` is
`end.tv_sec - start.tv_sec` and `dusec` is `end.tv_usec - start.tv_usec`. -/
def elapsedTime (dsec dusec : Int) : Double :=
  let elapsed_time := (Double.ofInt dsec).mul (.finite 1000)
  elapsed_time.add ((Double.ofInt dusec).div (.finite 1000))

/-- What the network does with one ping probe. -/
inductive PingOutcome where
  /-- The call `sendto(...)` returns a value `<= 0`. -/
  | sendFail
  /-- The call `poll(...)` returns a negative value. -/
  | pollFail
  /-- The call `poll(...)` returns `0`. -/
  | timeout
  /-- The call `recvfrom(...)` returns a value `<= 0`. -/
  | recvFail
  /-- A datagram is received; the two calls of `gettimeofday` differ by `dsec`
  in `tv_sec` and by `dusec` in `tv_usec`. -/
  | reply (dsec dusec : Int)
  deriving DecidableEq

/-- The observable actions of a ping session. -/
inductive PingEvent where
  /-- The call `sendto(sockfd, &packet, ...)`. -/
  | sendto (packet : EchoPacket)
  /-- The output of `perror(...)`. -/
  | perror
  /-- The output of `printf("Request timeout for icmp_seq=%d\n", seq_num)`. -/
  | timeoutLine (seq_num : Nat)
  /-- The reply line with `seq_num` and `elapsed_time`. -/
  | replyLine (seq_num : Nat) (elapsed_time : Double)
  deriving DecidableEq

/-- The variables of `main` that `send_ping` updates through pointers, and
`transmitted`. -/
structure PingStats where
  total_rtt : Double
  received : Int
  min_time : Double
  max_time : Double
  transmitted : Int
  deriving DecidableEq

/-- The initial values of line 166-167. -/
def initStats : PingStats :=
  { total_rtt := .finite 0, received := 0, min_time := .finite DBL_MAX, max_time := .finite 0,
    transmitted := 0 }

/-- The statistics update of `send_ping` (lines 109-117). -/
def recordRtt (s : PingStats) (elapsed_time : Double) : PingStats :=
  let s := if elapsed_time.lt s.min_time then { s with min_time := elapsed_time } else s
  let s := if s.max_time.lt elapsed_time then { s with max_time := elapsed_time } else s
  let s := { s with total_rtt := s.total_rtt.add elapsed_time }
  { s with received := s.received + 1 }

/-- The function `send_ping` for sequence number `seq_num`: the new statistics
and the actions. -/
def send_ping (be : Bool) (is_ipv6 : Bool) (uninit : PingPacket) (pid seq_num : Nat)
    (out : PingOutcome) (s : PingStats) : PingStats × List PingEvent :=
  let packet :=
    if is_ipv6 then pingPacket6 be uninit pid seq_num else pingPacket4 be uninit pid seq_num
  match out with
  | .sendFail => (s, [.sendto packet, .perror])
  | .pollFail => (s, [.sendto packet, .perror])
  | .timeout => (s, [.sendto packet, .timeoutLine seq_num])
  | .recvFail => (s, [.sendto packet])
  | .reply dsec dusec =>
    let elapsed_time := elapsedTime dsec dusec
    (recordRtt s elapsed_time, [.sendto packet, .replyLine seq_num elapsed_time])

/-- The environment of a ping session: the process id, and for the call of
`send_ping` in iteration `i` the outcome of the probe and the indeterminate
initial content of the local packet variable. -/
structure PingEnv where
  pid : Nat
  outcome : Nat → PingOutcome
  uninit : Nat → PingPacket

/-- The loop `for (int i = 0; i < count; i++)` of `main` (lines 211-217) from
index `i` with `n` iterations left. -/
def pingLoop (be : Bool) (is_ipv6 : Bool) (env : PingEnv) :
    Nat → Nat → PingStats → PingStats × List PingEvent
  | 0, _, s => (s, [])
  | n + 1, i, s =>
    let r := send_ping be is_ipv6 (env.uninit i) env.pid i (env.outcome i) s
    let s := { r.1 with transmitted := r.1.transmitted + 1 }
    let rest := pingLoop be is_ipv6 env n (i + 1) s
    (rest.1, r.2 ++ rest.2)

/-- The ping loop of `main` for the command-line value `count`. -/
def pingSession (be : Bool) (is_ipv6 : Bool) (env : PingEnv) (count : Int) :
    PingStats × List PingEvent :=
  pingLoop be is_ipv6 env count.toNat 0 initStats

/-- The sequence numbers carried by the echo requests handed to `sendto`. -/
def carriedSeqs : List PingEvent → List Nat
  | [] => []
  | .sendto packet :: l => packet.sequence :: carriedSeqs l
  | _ :: l => carriedSeqs l

/-- What the statistics part of `main` prints (lines 220-232). The last field
of `stats` is the argument of `sqrt` whose result is `mdev`, or `0` when `mdev`
keeps its initial value `0.0`; the square root itself is not modelled. -/
inductive Report where
  | stats (transmitted received : Int) (min_time mean max_time mdevRadicand : Double)
  | noReply
  deriving DecidableEq

/-- A division of a `double` by the `int` `n`, which has no result when `n` is
zero. -/
def divChecked (x : Double) (n : Int) : Option Double :=
  if n = 0 then none else some (x.div (Double.ofInt n))

/-- The statistics part of `main` (lines 220-232); `none` when a division by
zero is evaluated. -/
def report (s : PingStats) : Option Report :=
  if s.received > 0 then do
    let mean ← divChecked s.total_rtt s.received
    let radicand ←
      if s.received > 1 then do
        let q ← divChecked (s.total_rtt.mul s.total_rtt) s.received
        pure (q.sub (mean.mul mean))
      else pure (.finite 0)
    pure (.stats s.transmitted s.received s.min_time mean s.max_time radicand)
  else pure .noReply

/-- The argument of `sqrt` in the report, when statistics are printed. -/
def reportRadicand (s : PingStats) : Option Double :=
  match report s with
  | some (.stats _ _ _ _ _ r) => some r
  | _ => none

/-- The statistics after the samples of a list, given by their values, have
been recorded in order. -/
def recordAll (samples : List ℚ) : PingStats :=
  (samples.map Double.finite).foldl recordRtt initStats

/-- An environment in which every `sendto` fails at once, so that the loop
runs without waiting. -/
def failingEnv : PingEnv :=
  { pid := 1234, outcome := fun _ => .sendFail, uninit := fun _ => zeroPacket }

/-- An environment in which every probe is answered after 5 ms. -/
def answeringEnv : PingEnv :=
  { pid := 1234, outcome := fun _ => .reply 0 5000, uninit := fun _ => zeroPacket }

/-- The exact population variance `(Σ xᵢ²) / n - mean²` of a list of samples,
in rational arithmetic. -/
def populationVariance (samples : List ℚ) : ℚ :=
  (samples.map (fun x => x * x)).sum / samples.length
    - (samples.sum / samples.length) * (samples.sum / samples.length)

/-- The value of `elapsed_time` for a reply after 100 microseconds. -/
def rtt100us : ℚ := 3602879701896397 / 36028797018963968

/-- The value of `elapsed_time` for a reply after 200 microseconds. -/
def rtt200us : ℚ := 3602879701896397 / 18014398509481984

/-! ## Lemmas on the checksum -/

theorem word16_lt (be : Bool) {b0 b1 : Nat} (h0 : b0 < 256) (h1 : b1 < 256) :
    word16 be b0 b1 < 65536 := by
  unfold word16; split <;> omega

theorem sumWords_eq (be : Bool) : ∀ (b : List Nat) (sum : Nat), sum < 2 ^ 32 →
    sumWords be b sum = (sum + (words be b).sum) % 2 ^ 32
  | b0 :: b1 :: rest, sum, h => by
    have ih := sumWords_eq be rest ((sum + word16 be b0 b1) % 2 ^ 32)
      (Nat.mod_lt _ (by norm_num))
    simp only [sumWords, words, List.sum_cons, ih]
    omega
  | [b0], sum, _ => by simp [sumWords, words]
  | [], sum, h => by simp [sumWords, words]; omega

theorem words_sum_le (be : Bool) : ∀ (b : List Nat), IsBytes b →
    (words be b).sum ≤ 65535 * ((b.length + 1) / 2)
  | b0 :: b1 :: rest, h => by
    have h0 : b0 < 256 := h b0 (by simp)
    have h1 : b1 < 256 := h b1 (by simp)
    have hr : IsBytes rest := fun x hx => h x (by simp [hx])
    have ih := words_sum_le be rest hr
    have hw := word16_lt be h0 h1
    simp only [words, List.sum_cons, List.length_cons]
    omega
  | [b0], h => by
    have h0 : b0 < 256 := h b0 (by simp)
    simp [words]; omega
  | [], _ => by simp [words]

theorem words_lt (be : Bool) : ∀ (b : List Nat), IsBytes b → ∀ w ∈ words be b, w < 65536
  | b0 :: b1 :: rest, h => by
    have h0 : b0 < 256 := h b0 (by simp)
    have h1 : b1 < 256 := h b1 (by simp)
    have hr : IsBytes rest := fun x hx => h x (by simp [hx])
    have ih := words_lt be rest hr
    have hw := word16_lt be h0 h1
    intro w hmem
    simp only [words, List.mem_cons] at hmem
    rcases hmem with rfl | hmem
    · exact hw
    · exact ih w hmem
  | [b0], h => by
    have h0 : b0 < 256 := h b0 (by simp)
    intro w hmem
    simp only [words, List.mem_singleton] at hmem
    omega
  | [], _ => by simp [words]

theorem endAroundAdd_foldedValue (t w : Nat) (hw : w < 65536) :
    endAroundAdd (foldedValue t) w = foldedValue (t + w) := by
  unfold endAroundAdd foldedValue
  split <;> split <;> omega

theorem foldl_endAroundAdd (ws : List Nat) : ∀ (t : Nat), (∀ w ∈ ws, w < 65536) →
    ws.foldl endAroundAdd (foldedValue t) = foldedValue (t + ws.sum) := by
  induction ws with
  | nil => intro t _; simp
  | cons w ws ih =>
    intro t h
    have hw : w < 65536 := h w (by simp)
    have hws : ∀ x ∈ ws, x < 65536 := fun x hx => h x (by simp [hx])
    rw [List.foldl_cons, endAroundAdd_foldedValue t w hw, ih (t + w) hws, List.sum_cons,
      Nat.add_assoc]

theorem endAroundSum_eq (ws : List Nat) (h : ∀ w ∈ ws, w < 65536) :
    endAroundSum ws = foldedValue ws.sum := by
  have := foldl_endAroundAdd ws 0 h
  simpa [endAroundSum, foldedValue] using this

theorem foldedValue_le (t : Nat) : foldedValue t ≤ 65535 := by
  unfold foldedValue; split <;> omega

theorem fold_carry (x : Nat) (h0 : 0 < x) (h1 : x < 131071) :
    (x + x / 65536) % 65536 = (x - 1) % 65535 + 1 := by
  by_cases hx : x < 65536
  · have h2 : x / 65536 = 0 := by omega
    have h3 : (x - 1) % 65535 = x - 1 := Nat.mod_eq_of_lt (by omega)
    rw [h2, h3]; omega
  · have h2 : x / 65536 = 1 := by omega
    have h3 : (x - 1) % 65535 = x - 1 - 65535 := by
      rw [Nat.mod_eq_sub_mod (by omega)]
      exact Nat.mod_eq_of_lt (by omega)
    rw [h2, h3]; omega

theorem complement16_fold32 (s : Nat) (hs : s < 4294967296) :
    complement16 (fold32 s) = 65535 - foldedValue s := by
  have hh : s / 65536 < 65536 := by omega
  have hl : s % 65536 < 65536 := by omega
  have hsum : (s / 65536 + s % 65536) % 4294967296 = s / 65536 + s % 65536 := by omega
  unfold complement16 fold32 foldedValue
  simp only [Nat.reducePow, hsum]
  by_cases h0 : s = 0
  · subst h0; simp
  · have hx0 : 0 < s / 65536 + s % 65536 := by omega
    have hx1 : s / 65536 + s % 65536 < 131071 := by omega
    have hc := fold_carry (s / 65536 + s % 65536) hx0 hx1
    have hmod : (s - 1) % 65535 = (s / 65536 + s % 65536 - 1) % 65535 := by
      have : s - 1 = (s / 65536 + s % 65536 - 1) + 65535 * (s / 65536) := by omega
      rw [this, Nat.add_mul_mod_self_left]
    rw [if_neg h0, hmod]
    omega

theorem foldedValue_add_complement (s : Nat) (hs : s < 4294967296) :
    s + (65535 - foldedValue s) < 4294967296 ∧
      foldedValue (s + (65535 - foldedValue s)) = 65535 := by
  unfold foldedValue
  by_cases h0 : s = 0
  · subst h0; simp
  · simp only [if_neg h0]
    have hq : s + (65535 - ((s - 1) % 65535 + 1)) = 65535 * ((s - 1) / 65535 + 1) := by omega
    rw [hq]
    constructor
    · omega
    · have hne : 65535 * ((s - 1) / 65535 + 1) ≠ 0 := by omega
      rw [if_neg hne]
      omega

/-- Re-summing after the complement of the folded sum has been added gives a
sum that folds to `0xFFFF`, also when the 32-bit accumulator wrapped. -/
theorem checksum_resum (t : Nat) :
    complement16 (fold32 ((t + complement16 (fold32 (t % 4294967296))) % 4294967296)) = 0 := by
  have hs : t % 4294967296 < 4294967296 := Nat.mod_lt _ (by norm_num)
  rw [complement16_fold32 _ hs]
  obtain ⟨hlt, hfv⟩ := foldedValue_add_complement _ hs
  have hmod : (t + (65535 - foldedValue (t % 4294967296))) % 4294967296
      = t % 4294967296 + (65535 - foldedValue (t % 4294967296)) := by
    have hc : (65535 - foldedValue (t % 4294967296)) % 4294967296
        = 65535 - foldedValue (t % 4294967296) := Nat.mod_eq_of_lt (by omega)
    rw [Nat.add_mod, hc]
    exact Nat.mod_eq_of_lt hlt
  rw [hmod, complement16_fold32 _ hlt, hfv]

theorem word16_store16 (be : Bool) (v : Nat) (hv : v < 65536) :
    ∃ lo hi, store16 be v = [lo, hi] ∧ word16 be lo hi = v := by
  cases be
  · exact ⟨v % 256, v / 256 % 256, by simp [store16], by simp only [word16]; simp; omega⟩
  · exact ⟨v / 256 % 256, v % 256, by simp [store16], by simp only [word16]; simp; omega⟩

theorem sumWords_field (be : Bool) (b0 b1 v : Nat) (rest : List Nat) (hv : v < 65536) :
    sumWords be (b0 :: b1 :: (store16 be v ++ rest)) 0
      = (word16 be b0 b1 + (words be rest).sum + v) % 2 ^ 32 := by
  obtain ⟨lo, hi, hst, hw⟩ := word16_store16 be v hv
  have happ : [lo, hi] ++ rest = lo :: hi :: rest := rfl
  rw [hst, happ, sumWords_eq be _ 0 (by norm_num)]
  simp only [words, List.sum_cons, hw]
  congr 1
  omega

theorem complement16_lt (s : Nat) : complement16 s < 65536 := by
  unfold complement16; omega

/-! ## Claims on the checksum -/

/-- C1: for every buffer `B` of length at least 4, even or odd, whose checksum
field (bytes 2-3) is zero, storing `checksum(B)` into that field and computing
the checksum of the whole buffer again gives 0. The range of the other bytes
and the byte order of the machine play no role. -/
theorem checksum_of_filled_buffer_is_zero (be : Bool) (B : List Nat) (hlen : 4 ≤ B.length)
    (h2 : B[2]? = some 0) (h3 : B[3]? = some 0) :
    checksum be (setChecksumField be B (checksum be B)) = 0 := by
  match B, hlen, h2, h3 with
  | b0 :: b1 :: b2 :: b3 :: rest, _, h2, h3 =>
    simp only [List.getElem?_cons_succ, List.getElem?_cons_zero, Option.some.injEq] at h2 h3
    subst h2 h3
    have hc : checksum be (b0 :: b1 :: 0 :: 0 :: rest)
        = complement16 (fold32 ((word16 be b0 b1 + (words be rest).sum) % 4294967296)) := by
      have h := sumWords_field be b0 b1 0 rest (by norm_num)
      have hz : store16 be 0 ++ rest = 0 :: 0 :: rest := by cases be <;> simp [store16]
      rw [hz] at h
      simp only [checksum, h, Nat.reducePow, Nat.add_zero]
    have hset : setChecksumField be (b0 :: b1 :: 0 :: 0 :: rest)
        (checksum be (b0 :: b1 :: 0 :: 0 :: rest))
        = b0 :: b1 :: (store16 be (checksum be (b0 :: b1 :: 0 :: 0 :: rest)) ++ rest) := by
      simp [setChecksumField]
    rw [hset]
    unfold checksum
    rw [sumWords_field be b0 b1 _ rest (complement16_lt _)]
    have hc2 := hc
    unfold checksum at hc2
    rw [hc2]
    exact checksum_resum _

/-- Witness of C1 on a 9-byte buffer (odd length) of a little-endian machine. -/
theorem checksum_of_filled_buffer_is_zero_witness :
    checksum false (setChecksumField false [8, 0, 0, 0, 52, 18, 1, 0, 5]
      (checksum false [8, 0, 0, 0, 52, 18, 1, 0, 5])) = 0 :=
  checksum_of_filled_buffer_is_zero false [8, 0, 0, 0, 52, 18, 1, 0, 5]
    (by decide) (by decide) (by decide)

/-- C2: for every byte buffer of length at most 131072, `checksum` returns
`0xFFFF` minus the 16-bit end-around-carry sum of the native-order words of the
buffer (a trailing odd byte counting as a zero-extended word): the two folds
leave no residual carry. The result is `0xFFFF` when the word sum is zero, as
for the all-zero buffer of 64 bytes. -/
theorem checksum_eq_complement_of_endAroundSum (be : Bool) (B : List Nat) (hB : IsBytes B)
    (hlen : B.length ≤ 131072) :
    endAroundSum (words be B) ≤ 0xFFFF ∧
      checksum be B = 0xFFFF - endAroundSum (words be B) ∧
      ((words be B).sum = 0 → checksum be B = 0xFFFF) ∧
      checksum be (List.replicate 64 0) = 0xFFFF := by
  have hsum := words_sum_le be B hB
  have hlt : (words be B).sum < 4294967296 := by omega
  have hes := endAroundSum_eq (words be B) (words_lt be B hB)
  have hck : checksum be B = 65535 - foldedValue (words be B).sum := by
    unfold checksum
    rw [sumWords_eq be B 0 (by norm_num), Nat.zero_add, Nat.mod_eq_of_lt (by norm_num; exact hlt)]
    exact complement16_fold32 _ hlt
  refine ⟨?_, ?_, ?_, ?_⟩
  · rw [hes]; exact foldedValue_le _
  · rw [hes, hck]
  · intro h0
    rw [hck, h0]
    simp [foldedValue]
  · cases be <;> decide

/-- Witness of C2 on a 9-byte buffer of a little-endian machine. -/
theorem checksum_eq_complement_of_endAroundSum_witness :
    checksum false [8, 0, 0, 0, 52, 18, 1, 0, 5]
      = 0xFFFF - endAroundSum (words false [8, 0, 0, 0, 52, 18, 1, 0, 5]) :=
  (checksum_eq_complement_of_endAroundSum false [8, 0, 0, 0, 52, 18, 1, 0, 5]
    (by decide) (by decide)).2.1

/-! ## Lemmas on the packet builders -/

theorem traceroutePacket_isEchoRequest (be : Bool) (pid ttl i : Nat) :
    IsEchoRequest be ICMP_ECHO pid (ttl * 3 + i) (traceroutePacket be pid ttl i) := by
  refine ⟨rfl, rfl, rfl, rfl, ?_, rfl⟩
  intro x hx
  simp only [traceroutePacket, zeroPacket, List.mem_replicate] at hx
  exact hx.2

theorem pingPacket4_isEchoRequest (be : Bool) (uninit : PingPacket) (pid seq_num : Nat) :
    IsEchoRequest be ICMP_ECHO pid seq_num (pingPacket4 be uninit pid seq_num) := by
  refine ⟨rfl, rfl, rfl, rfl, ?_, rfl⟩
  intro x hx
  simp only [pingPacket4, List.mem_replicate] at hx
  exact hx.2

theorem pingPacket6_fields (be : Bool) (uninit : PingPacket) (pid seq_num : Nat) :
    (pingPacket6 be uninit pid seq_num).type = ICMP6_ECHO_REQUEST ∧
      (pingPacket6 be uninit pid seq_num).code = uninit.code ∧
      (pingPacket6 be uninit pid seq_num).id = pid % 65536 ∧
      (pingPacket6 be uninit pid seq_num).sequence = seq_num % 65536 ∧
      (∀ x ∈ (pingPacket6 be uninit pid seq_num).data, x = 0) ∧
      (pingPacket6 be uninit pid seq_num).checksum
        = checksum be ({ pingPacket6 be uninit pid seq_num with checksum := 0 }.bytes be) := by
  refine ⟨rfl, rfl, rfl, rfl, ?_, rfl⟩
  intro x hx
  simp only [pingPacket6, List.mem_replicate] at hx
  exact hx.2

/-! ## Claim on the packet builders -/

/-- C3 (evaluation at the failing input): when the uninitialised `packet6` has
the code byte `0xFF`, the packet that the IPv6 branch of `send_ping` hands to
`sendto` has code `0xFF`, so it is not a well-formed echo request, while the
IPv4 branch at the same input builds one with code 0. -/
theorem pingPacket6_keeps_uninitialised_code :
    (pingPacket6 false dirtyStack 1234 0).code = 255 ∧
      ¬ IsEchoRequest false ICMP6_ECHO_REQUEST 1234 0 (pingPacket6 false dirtyStack 1234 0) ∧
      (pingPacket4 false dirtyStack 1234 0).code = 0 := by
  refine ⟨rfl, ?_, rfl⟩
  intro h
  have hcode : (pingPacket6 false dirtyStack 1234 0).code = 0 := h.2.1
  exact absurd hcode (by decide)

/-! ## Lemmas on the traceroute session -/

theorem probesOf_append (l₁ l₂ : List TrEvent) :
    probesOf (l₁ ++ l₂) = probesOf l₁ ++ probesOf l₂ := by
  induction l₁ with
  | nil => rfl
  | cons e l ih => cases e <;> simp [probesOf, ih]

theorem addrPrints_append (l₁ l₂ : List TrEvent) :
    addrPrints (l₁ ++ l₂) = addrPrints l₁ ++ addrPrints l₂ := by
  induction l₁ with
  | nil => rfl
  | cons e l ih => cases e <;> simp [addrPrints, ih]

theorem hopsOf_append (l₁ l₂ : List TrEvent) :
    hopsOf (l₁ ++ l₂) = hopsOf l₁ ++ hopsOf l₂ := by
  induction l₁ with
  | nil => rfl
  | cons e l ih => cases e <;> simp [hopsOf, ih]

/-- The three attempts of one hop, whatever the network does: three probes in
order, an address print for attempt 0 only, and a return from inside the loop
exactly when the reply to attempt 2 comes from the destination. -/
theorem probeLoop_hop (be : Bool) (tr : Transport) (pid dest ttl : Nat) :
    probesOf (probeLoop be tr pid dest ttl 3 0).1 = hopProbes ttl ∧
      addrPrints (probeLoop be tr pid dest ttl 3 0).1 = firstAttemptAddr tr ttl ∧
      hopsOf (probeLoop be tr pid dest ttl 3 0).1 = [] ∧
      TrEvent.unreachable ∉ (probeLoop be tr pid dest ttl 3 0).1 ∧
      ((probeLoop be tr pid dest ttl 3 0).2 = true ↔ tr ttl 2 = .reply dest) ∧
      ((probeLoop be tr pid dest ttl 3 0).2 = true →
        (probeLoop be tr pid dest ttl 3 0).1.getLast? = some .reached) ∧
      ((probeLoop be tr pid dest ttl 3 0).2 = false →
        TrEvent.reached ∉ (probeLoop be tr pid dest ttl 3 0).1) := by
  simp only [probeLoop, firstAttemptAddr, hopProbes]
  cases h0 : tr ttl 0 <;> cases h1 : tr ttl 1 <;> cases h2 : tr ttl 2 <;>
    simp [probesOf, addrPrints, hopsOf] <;> split <;> simp_all [probesOf, addrPrints, hopsOf]

theorem ttlLoop_reached_step (be : Bool) (tr : Transport) (pid dest n ttl : Nat)
    (h : (probeLoop be tr pid dest ttl 3 0).2 = true) :
    ttlLoop be tr pid dest (n + 1) ttl = .hop ttl :: (probeLoop be tr pid dest ttl 3 0).1 := by
  simp [ttlLoop, h]

theorem ttlLoop_continue_step (be : Bool) (tr : Transport) (pid dest n ttl : Nat)
    (h : (probeLoop be tr pid dest ttl 3 0).2 = false) :
    ttlLoop be tr pid dest (n + 1) ttl
      = .hop ttl :: ((probeLoop be tr pid dest ttl 3 0).1
          ++ .newline :: ttlLoop be tr pid dest n (ttl + 1)) := by
  simp [ttlLoop, h]

theorem probesFrom_length : ∀ (n ttl : Nat), (probesFrom n ttl).length = 3 * n
  | 0, _ => rfl
  | n + 1, ttl => by
    simp only [probesFrom, hopProbes, List.length_append, probesFrom_length n (ttl + 1)]
    simp only [List.length_cons, List.length_nil]
    omega

theorem probesFrom_bounds : ∀ (n ttl : Nat) (p : Nat × Nat), p ∈ probesFrom n ttl →
    ttl ≤ p.1 ∧ p.1 < ttl + n
  | 0, _, p, h => by simp [probesFrom] at h
  | n + 1, ttl, p, h => by
    simp only [probesFrom, hopProbes, List.mem_append, List.mem_cons, List.mem_singleton,
      List.not_mem_nil, or_false] at h
    rcases h with (h | h | h) | h
    · subst h; simp
    · subst h; simp
    · subst h; simp
    · have := probesFrom_bounds n (ttl + 1) p h
      omega

/-- A session whose first reply from the destination to a third attempt comes
`k` hops after `ttl` stops there. -/
theorem ttlLoop_reach (be : Bool) (tr : Transport) (pid dest : Nat) :
    ∀ (k n ttl : Nat), k < n →
      (∀ t, ttl ≤ t → t < ttl + k → tr t 2 ≠ .reply dest) →
      tr (ttl + k) 2 = .reply dest →
      (ttlLoop be tr pid dest n ttl).getLast? = some .reached ∧
        TrEvent.unreachable ∉ ttlLoop be tr pid dest n ttl ∧
        hopsOf (ttlLoop be tr pid dest n ttl) = List.range' ttl (k + 1) ∧
        probesOf (ttlLoop be tr pid dest n ttl) = probesFrom (k + 1) ttl := by
  intro k
  induction k with
  | zero =>
    intro n ttl hn _ hd
    obtain ⟨m, rfl⟩ : ∃ m, n = m + 1 := ⟨n - 1, by omega⟩
    obtain ⟨hp, _, hh, hu, hr, hl, _⟩ := probeLoop_hop be tr pid dest ttl
    have hret : (probeLoop be tr pid dest ttl 3 0).2 = true := hr.2 (by simpa using hd)
    rw [ttlLoop_reached_step be tr pid dest m ttl hret]
    refine ⟨?_, ?_, ?_, ?_⟩
    · rw [List.getLast?_cons, hl hret]; rfl
    · simp [hu]
    · simp [hopsOf, hh, List.range'_succ]
    · simp [probesOf, hp, probesFrom]
  | succ k ih =>
    intro n ttl hn hb hd
    obtain ⟨m, rfl⟩ : ∃ m, n = m + 1 := ⟨n - 1, by omega⟩
    obtain ⟨hp, _, hh, hu, hr, _, _⟩ := probeLoop_hop be tr pid dest ttl
    have hret : (probeLoop be tr pid dest ttl 3 0).2 = false := by
      cases hc : (probeLoop be tr pid dest ttl 3 0).2
      · rfl
      · exact absurd (hr.1 hc) (hb ttl (Nat.le_refl _) (by omega))
    have hd' : tr (ttl + 1 + k) 2 = .reply dest := by
      have : ttl + 1 + k = ttl + (k + 1) := by omega
      rw [this]; exact hd
    obtain ⟨i1, i2, i3, i4⟩ := ih m (ttl + 1) (by omega)
      (fun t ht1 ht2 => hb t (by omega) (by omega)) hd'
    rw [ttlLoop_continue_step be tr pid dest m ttl hret]
    refine ⟨?_, ?_, ?_, ?_⟩
    · rw [List.getLast?_cons, List.getLast?_append, List.getLast?_cons, i1]; rfl
    · simp [hu, i2]
    · simp [hopsOf, hopsOf_append, hh, i3, List.range'_succ ttl (k + 1)]
    · simp only [probesOf, probesOf_append, hp, i4]
      rfl

/-- A session in which no reply to a third attempt comes from the destination
runs all its hops and ends with the unreachable report. -/
theorem ttlLoop_exhaust (be : Bool) (tr : Transport) (pid dest : Nat) :
    ∀ (n ttl : Nat), (∀ t, ttl ≤ t → t < ttl + n → tr t 2 ≠ .reply dest) →
      (ttlLoop be tr pid dest n ttl).getLast? = some .unreachable ∧
        TrEvent.reached ∉ ttlLoop be tr pid dest n ttl ∧
        hopsOf (ttlLoop be tr pid dest n ttl) = List.range' ttl n ∧
        probesOf (ttlLoop be tr pid dest n ttl) = probesFrom n ttl := by
  intro n
  induction n with
  | zero => intro ttl _; simp [ttlLoop, hopsOf, probesOf, probesFrom]
  | succ m ih =>
    intro ttl hb
    obtain ⟨hp, _, hh, _, hr, _, hnr⟩ := probeLoop_hop be tr pid dest ttl
    have hret : (probeLoop be tr pid dest ttl 3 0).2 = false := by
      cases hc : (probeLoop be tr pid dest ttl 3 0).2
      · rfl
      · exact absurd (hr.1 hc) (hb ttl (Nat.le_refl _) (by omega))
    obtain ⟨i1, i2, i3, i4⟩ := ih (ttl + 1) (fun t ht1 ht2 => hb t (by omega) (by omega))
    rw [ttlLoop_continue_step be tr pid dest m ttl hret]
    refine ⟨?_, ?_, ?_, ?_⟩
    · rw [List.getLast?_cons, List.getLast?_append, List.getLast?_cons, i1]; rfl
    · simp [hnr hret, i2]
    · simp [hopsOf, hopsOf_append, hh, i3, List.range'_succ ttl m]
    · simp only [probesOf, probesOf_append, hp, i4]
      rfl

theorem ttlLoop_lower (be : Bool) (tr : Transport) (pid dest : Nat) :
    ∀ (n ttl : Nat), (∀ p ∈ probesOf (ttlLoop be tr pid dest n ttl), ttl ≤ p.1) ∧
      (∀ q ∈ addrPrints (ttlLoop be tr pid dest n ttl), ttl ≤ q.1) := by
  intro n
  induction n with
  | zero => intro ttl; simp [ttlLoop, probesOf, addrPrints]
  | succ m ih =>
    intro ttl
    obtain ⟨hp, ha, _, _, _, _, _⟩ := probeLoop_hop be tr pid dest ttl
    have hfirst : ∀ q ∈ firstAttemptAddr tr ttl, ttl ≤ q.1 := by
      intro q hq
      unfold firstAttemptAddr at hq
      split at hq <;> simp at hq
      subst hq; simp
    cases hc : (probeLoop be tr pid dest ttl 3 0).2
    · rw [ttlLoop_continue_step be tr pid dest m ttl hc]
      simp only [probesOf, addrPrints, probesOf_append, addrPrints_append, hp, ha,
        List.mem_append]
      constructor
      · rintro p (h | h)
        · simp only [hopProbes, List.mem_cons, List.mem_singleton, List.not_mem_nil,
            or_false] at h
          rcases h with h | h | h <;> subst h <;> simp
        · have := (ih (ttl + 1)).1 p h
          omega
      · rintro q (h | h)
        · exact hfirst q h
        · have := (ih (ttl + 1)).2 q h
          omega
    · rw [ttlLoop_reached_step be tr pid dest m ttl hc]
      simp only [probesOf, addrPrints, hp, ha]
      constructor
      · intro p h
        simp only [hopProbes, List.mem_cons, List.mem_singleton, List.not_mem_nil,
          or_false] at h
        rcases h with h | h | h <;> subst h <;> simp
      · exact hfirst

theorem filter_firstAttemptAddr (tr : Transport) (ttl t : Nat) :
    (firstAttemptAddr tr ttl).filter (fun q => decide (q.1 = t))
      = if t = ttl then firstAttemptAddr tr ttl else [] := by
  unfold firstAttemptAddr
  by_cases h : t = ttl
  · subst h; cases tr t 0 <;> simp
  · have h' : ¬ ttl = t := fun e => h e.symm
    cases tr ttl 0 <;> simp [h, h']

theorem mem_hopProbes_zero (ttl t : Nat) : (t, 0) ∈ hopProbes ttl ↔ t = ttl := by
  simp [hopProbes]

/-- The address prints of hop `t` in the rest of a session: the reply address
of attempt 0 when hop `t` is probed and attempt 0 is answered, nothing
otherwise. -/
theorem ttlLoop_addr (be : Bool) (tr : Transport) (pid dest t : Nat) :
    ∀ (n ttl : Nat),
      (addrPrints (ttlLoop be tr pid dest n ttl)).filter (fun q => decide (q.1 = t))
        = if (t, 0) ∈ probesOf (ttlLoop be tr pid dest n ttl) then firstAttemptAddr tr t
          else [] := by
  intro n
  induction n with
  | zero => intro ttl; simp [ttlLoop, probesOf, addrPrints]
  | succ m ih =>
    intro ttl
    obtain ⟨hp, ha, _, _, _, _, _⟩ := probeLoop_hop be tr pid dest ttl
    cases hc : (probeLoop be tr pid dest ttl 3 0).2
    · rw [ttlLoop_continue_step be tr pid dest m ttl hc]
      simp only [probesOf, addrPrints, probesOf_append, addrPrints_append, hp, ha,
        List.filter_append, filter_firstAttemptAddr, List.mem_append, mem_hopProbes_zero]
      by_cases ht : t = ttl
      · subst ht
        have hnone : (addrPrints (ttlLoop be tr pid dest m (t + 1))).filter
            (fun q => decide (q.1 = t)) = [] := by
          rw [List.filter_eq_nil_iff]
          intro q hq
          have := (ttlLoop_lower be tr pid dest m (t + 1)).2 q hq
          simp only [decide_eq_true_eq]
          omega
        simp [hnone]
      · simp only [ht, if_false, false_or, List.nil_append]
        exact ih (ttl + 1)
    · rw [ttlLoop_reached_step be tr pid dest m ttl hc]
      simp only [probesOf, addrPrints, hp, ha, filter_firstAttemptAddr, mem_hopProbes_zero]
      by_cases ht : t = ttl
      · subst ht; simp
      · simp [ht]

/-! ## Claims on the traceroute session -/

/-- C4: for every transport and every `h` in `1 .. 30`, if the third attempt at
TTL `h` gets a reply whose source is the destination and no third attempt at a
lower TTL does, the session ends with the "Reached destination" report, never
prints "Destination unreachable", has printed the hops `1 .. h`, and has
attempted exactly the `3 * h` probes of the hops `1 .. h` in order, none with a
TTL above `h`. -/
theorem traceroute_stops_at_destination (be : Bool) (tr : Transport) (pid dest h : Nat)
    (h1 : 1 ≤ h) (h30 : h ≤ 30) (hdest : tr h 2 = .reply dest)
    (hbefore : ∀ t, 1 ≤ t → t < h → tr t 2 ≠ .reply dest) :
    (traceroute be tr pid dest).getLast? = some .reached ∧
      TrEvent.unreachable ∉ traceroute be tr pid dest ∧
      hopsOf (traceroute be tr pid dest) = List.range' 1 h ∧
      probesOf (traceroute be tr pid dest) = probesFrom h 1 ∧
      (probesOf (traceroute be tr pid dest)).length = 3 * h ∧
      ∀ p ∈ probesOf (traceroute be tr pid dest), 1 ≤ p.1 ∧ p.1 ≤ h := by
  obtain ⟨k, rfl⟩ : ∃ k, h = k + 1 := ⟨h - 1, by omega⟩
  have hd : tr (1 + k) 2 = .reply dest := by rw [Nat.add_comm]; exact hdest
  obtain ⟨r1, r2, r3, r4⟩ := ttlLoop_reach be tr pid dest k MAX_TTL 1
    (by unfold MAX_TTL; omega) (fun t ht1 ht2 => hbefore t ht1 (by omega)) hd
  unfold traceroute
  refine ⟨r1, r2, r3, r4, ?_, ?_⟩
  · rw [r4, probesFrom_length]
  · intro p hp
    rw [r4] at hp
    have := probesFrom_bounds (k + 1) 1 p hp
    omega

/-- Witness of C4: on the transport of the spec's test the session stops at
hop 6 after 18 probes. -/
theorem traceroute_stops_at_destination_witness :
    (traceroute false sixHopTransport 1 7).getLast? = some .reached ∧
      probesOf (traceroute false sixHopTransport 1 7) = probesFrom 6 1 ∧
      (probesOf (traceroute false sixHopTransport 1 7)).length = 3 * 6 :=
  have h := traceroute_stops_at_destination false sixHopTransport 1 7 6 (by decide) (by decide)
    (by decide) (by
      intro t _ ht
      have : t < 6 := ht
      simp only [sixHopTransport, this, if_true, ne_eq, ProbeOutcome.reply.injEq]
      omega)
  ⟨h.1, h.2.2.2.1, h.2.2.2.2.1⟩

/-- C5: for every transport under which no reply carries the destination
address, the session attempts the probes of the TTLs `1, 2, ..., 30` in
increasing order, three per TTL and 90 in all, never prints "Reached
destination" and ends with the "Destination unreachable" report. -/
theorem traceroute_exhausts_all_hops (be : Bool) (tr : Transport) (pid dest : Nat)
    (hnever : ∀ t i, tr t i ≠ .reply dest) :
    (traceroute be tr pid dest).getLast? = some .unreachable ∧
      TrEvent.reached ∉ traceroute be tr pid dest ∧
      hopsOf (traceroute be tr pid dest) = List.range' 1 30 ∧
      probesOf (traceroute be tr pid dest) = probesFrom 30 1 ∧
      (probesOf (traceroute be tr pid dest)).length = 90 := by
  obtain ⟨r1, r2, r3, r4⟩ := ttlLoop_exhaust be tr pid dest MAX_TTL 1
    (fun t _ _ => hnever t 2)
  unfold traceroute
  refine ⟨r1, r2, r3, r4, ?_⟩
  rw [r4, probesFrom_length]
  rfl

/-- Witness of C5: the session over a network that never answers. -/
theorem traceroute_exhausts_all_hops_witness :
    (traceroute false silentTransport 1 7).getLast? = some .unreachable ∧
      (probesOf (traceroute false silentTransport 1 7)).length = 90 :=
  have h := traceroute_exhausts_all_hops false silentTransport 1 7
    (by intro t i; simp [silentTransport])
  ⟨h.1, h.2.2.2.2⟩

/-- C9 (as stated, refuted): at hop 1 under `lateReplyTransport` attempt 0 gets
no reply and attempt 1 is the first successful attempt, both attempts are
made, and the session prints no address at all. -/
theorem address_not_printed_at_later_first_success :
    lateReplyTransport 1 0 = .notReady ∧ lateReplyTransport 1 1 = .reply 99 ∧
      (1, 0) ∈ probesOf (traceroute false lateReplyTransport 1 99) ∧
      (1, 1) ∈ probesOf (traceroute false lateReplyTransport 1 99) ∧
      addrPrints (traceroute false lateReplyTransport 1 99) = [] := by
  decide

/-- C9 (amended): for every transport and every hop `t`, the address prints of
hop `t` in a session are: the source address of the reply to attempt 0, printed
once at attempt 0, when hop `t` is probed and attempt 0 is answered; and none
otherwise, whatever the later attempts of the hop receive. -/
theorem address_printed_at_first_attempt_only (be : Bool) (tr : Transport)
    (pid dest t : Nat) :
    (addrPrints (traceroute be tr pid dest)).filter (fun q => decide (q.1 = t))
      = if (t, 0) ∈ probesOf (traceroute be tr pid dest) then firstAttemptAddr tr t
        else [] :=
  ttlLoop_addr be tr pid dest t MAX_TTL 1

/-! ## Lemmas on the ping session -/

theorem carriedSeqs_append (l₁ l₂ : List PingEvent) :
    carriedSeqs (l₁ ++ l₂) = carriedSeqs l₁ ++ carriedSeqs l₂ := by
  induction l₁ with
  | nil => rfl
  | cons e l ih => cases e <;> simp [carriedSeqs, ih]

theorem send_ping_carried (be is_ipv6 : Bool) (uninit : PingPacket) (pid seq_num : Nat)
    (out : PingOutcome) (s : PingStats) :
    carriedSeqs (send_ping be is_ipv6 uninit pid seq_num out s).2 = [seq_num % 65536] := by
  cases out <;> cases is_ipv6 <;> rfl

theorem pingLoop_carried (be is_ipv6 : Bool) (env : PingEnv) :
    ∀ (n i : Nat) (s : PingStats),
      carriedSeqs (pingLoop be is_ipv6 env n i s).2
        = (List.range' i n).map (fun j => j % 65536) := by
  intro n
  induction n with
  | zero => intro i s; rfl
  | succ m ih =>
    intro i s
    simp only [pingLoop, carriedSeqs_append, send_ping_carried, ih, List.range'_succ,
      List.map_cons, List.singleton_append]

theorem recordRtt_fields (s : PingStats) (e : Double) :
    (recordRtt s e).total_rtt = s.total_rtt.add e ∧
      (recordRtt s e).received = s.received + 1 ∧
      (recordRtt s e).min_time = (if e.lt s.min_time then e else s.min_time) ∧
      (recordRtt s e).max_time = (if s.max_time.lt e then e else s.max_time) ∧
      (recordRtt s e).transmitted = s.transmitted := by
  unfold recordRtt
  cases h1 : e.lt s.min_time <;> cases h2 : s.max_time.lt e <;> simp [h1, h2]

/-- The order statistics and the counter after the samples `xs` have been
recorded from a state whose `min_time` and `max_time` are finite. -/
theorem foldl_recordRtt_order (xs : List ℚ) : ∀ (s : PingStats) (m0 M0 : ℚ),
    s.min_time = .finite m0 → s.max_time = .finite M0 →
    ∃ m M, ((xs.map Double.finite).foldl recordRtt s).min_time = .finite m ∧
      ((xs.map Double.finite).foldl recordRtt s).max_time = .finite M ∧
      ((xs.map Double.finite).foldl recordRtt s).received = s.received + xs.length ∧
      (m ≤ m0 ∧ (∀ x ∈ xs, m ≤ x) ∧ (m = m0 ∨ m ∈ xs)) ∧
      (M0 ≤ M ∧ (∀ x ∈ xs, x ≤ M) ∧ (M = M0 ∨ M ∈ xs)) := by
  induction xs with
  | nil => intro s m0 M0 h1 h2; exact ⟨m0, M0, by simpa using h1, by simpa using h2, by simp⟩
  | cons e xs ih =>
    intro s m0 M0 h1 h2
    obtain ⟨_, hr, hmin, hmax, _⟩ := recordRtt_fields s (.finite e)
    have hmin' : (recordRtt s (.finite e)).min_time = .finite (if e < m0 then e else m0) := by
      rw [hmin, h1]
      by_cases h : e < m0 <;> simp [Double.lt, h]
    have hmax' : (recordRtt s (.finite e)).max_time = .finite (if M0 < e then e else M0) := by
      rw [hmax, h2]
      by_cases h : M0 < e <;> simp [Double.lt, h]
    obtain ⟨m, M, i1, i2, i3, ⟨a1, a2, a3⟩, ⟨b1, b2, b3⟩⟩ :=
      ih (recordRtt s (.finite e)) _ _ hmin' hmax'
    refine ⟨m, M, by simpa using i1, by simpa using i2, ?_, ⟨?_, ?_, ?_⟩, ⟨?_, ?_, ?_⟩⟩
    · simp only [List.map_cons, List.foldl_cons, List.length_cons]
      rw [i3, hr]
      push_cast
      ring
    · split_ifs at a1 with h
      · exact le_trans a1 (le_of_lt h)
      · exact a1
    · intro x hx
      rcases List.mem_cons.mp hx with rfl | hx
      · split_ifs at a1 with h
        · exact a1
        · exact le_trans a1 (not_lt.mp h)
      · exact a2 x hx
    · rcases a3 with h | h
      · split_ifs at h with hlt
        · exact Or.inr (by rw [h]; exact List.mem_cons_self _ _)
        · exact Or.inl h
      · exact Or.inr (List.mem_cons_of_mem _ h)
    · split_ifs at b1 with h
      · exact le_trans (le_of_lt h) b1
      · exact b1
    · intro x hx
      rcases List.mem_cons.mp hx with rfl | hx
      · split_ifs at b1 with h
        · exact b1
        · exact le_trans (not_lt.mp h) b1
      · exact b2 x hx
    · rcases b3 with h | h
      · split_ifs at h with hlt
        · exact Or.inr (by rw [h]; exact List.mem_cons_self _ _)
        · exact Or.inl h
      · exact Or.inr (List.mem_cons_of_mem _ h)

/-- The running sum after the samples `xs` have been recorded, when no
addition rounds: every partial sum is the value of a `double`. -/
theorem foldl_recordRtt_total (xs : List ℚ) : ∀ (s : PingStats) (t : ℚ),
    s.total_rtt = .finite t →
    (∀ k, k ≤ xs.length → IsDouble (t + (xs.take k).sum)) →
    ((xs.map Double.finite).foldl recordRtt s).total_rtt = .finite (t + xs.sum) := by
  induction xs with
  | nil => intro s t h _; simpa using h
  | cons e xs ih =>
    intro s t h hex
    have h1 : IsDouble (t + e) := by
      have := hex 1 (by simp)
      simpa using this
    have ht : (recordRtt s (.finite e)).total_rtt = .finite (t + e) := by
      rw [(recordRtt_fields s (.finite e)).1, h]
      exact h1
    have hex' : ∀ k, k ≤ xs.length → IsDouble (t + e + (xs.take k).sum) := by
      intro k hk
      have := hex (k + 1) (by simp [hk])
      simpa [add_assoc] using this
    have := ih (recordRtt s (.finite e)) (t + e) ht hex'
    simpa [add_assoc] using this

theorem send_ping_received (be is_ipv6 : Bool) (uninit : PingPacket) (pid seq_num : Nat)
    (out : PingOutcome) (s : PingStats) :
    s.received ≤ (send_ping be is_ipv6 uninit pid seq_num out s).1.received := by
  cases out <;> simp only [send_ping, le_refl]
  rw [(recordRtt_fields s _).2.1]
  omega

theorem pingLoop_received (be is_ipv6 : Bool) (env : PingEnv) :
    ∀ (n i : Nat) (s : PingStats),
      s.received ≤ (pingLoop be is_ipv6 env n i s).1.received := by
  intro n
  induction n with
  | zero => intro i s; exact le_refl _
  | succ m ih =>
    intro i s
    simp only [pingLoop]
    exact le_trans (send_ping_received be is_ipv6 (env.uninit i) env.pid i (env.outcome i) s)
      (ih (i + 1) _)

/-- The report for any values of the variables: never a division by zero, the
"No reply received" branch exactly when `received <= 0`. -/
theorem report_cases (s : PingStats) :
    report s ≠ none ∧ (report s = some .noReply ↔ s.received ≤ 0) := by
  unfold report
  by_cases h : s.received > 0
  · have hne : s.received ≠ 0 := by omega
    by_cases h1 : s.received > 1
    · simp [h, h1, divChecked, hne, bind, pure]
    · simp [h, h1, divChecked, hne, bind, pure]
  · simp [h, pure]
    omega

theorem reportRadicand_of_one (s : PingStats) (h : s.received = 1) :
    reportRadicand s = some (.finite 0) := by
  unfold reportRadicand report
  simp [h, divChecked, bind, pure]

theorem bitLog_le : ∀ (fuel n k : Nat), n < 2 ^ (k + 1) → bitLog fuel n ≤ k
  | 0, _, _, _ => Nat.zero_le _
  | fuel + 1, n, k, h => by
    unfold bitLog
    by_cases h2 : n < 2
    · simp [h2]
    · rw [if_neg h2]
      obtain ⟨j, rfl⟩ : ∃ j, k = j + 1 := by
        cases k with
        | zero => exact absurd (by simpa using h) h2
        | succ j => exact ⟨j, rfl⟩
      have hhalf : n / 2 < 2 ^ (j + 1) := by
        rw [Nat.div_lt_iff_lt_mul (by norm_num)]
        calc n < 2 ^ (j + 1 + 1) := h
          _ = 2 ^ (j + 1) * 2 := by ring
      have := bitLog_le fuel (n / 2) j hhalf
      omega

theorem floorLog2_one_le (n : Nat) (h : n < 2 ^ 53) : floorLog2 n 1 ≤ 52 := by
  have hb := bitLog_le n n 52 h
  have h1 : bitLog 1 1 = 0 := rfl
  unfold floorLog2
  simp only [h1]
  split <;> omega

/-- Every natural number below `2 ^ 53` is the value of a `double`: the
conversion of an `int` to `double` is exact. -/
theorem isDouble_natCast (n : Nat) (h : n < 2 ^ 53) : IsDouble (n : ℚ) := by
  unfold IsDouble roundNE
  by_cases h0 : n = 0
  · subst h0; simp
  · have hq : (n : ℚ) ≠ 0 := by exact_mod_cast h0
    have hpos : (0 : ℚ) < n := by exact_mod_cast Nat.pos_of_ne_zero h0
    rw [if_neg hq]
    simp only [Rat.num_natCast, Rat.den_natCast, Int.natAbs_ofNat]
    have hle : max (floorLog2 n 1 - 52) (-1074) ≤ 0 := by
      have := floorLog2_one_le n h
      omega
    obtain ⟨j, hj⟩ : ∃ j : Nat, max (floorLog2 n 1 - 52) (-1074) = -(j : Int) :=
      ⟨(-(max (floorLog2 n 1 - 52) (-1074))).toNat, by omega⟩
    rw [hj]
    have e1 : (-(j : Int)).toNat = 0 := by omega
    have e2 : (- -(j : Int)).toNat = j := by omega
    simp only [e1, e2, pow_zero, Nat.mul_one, Nat.div_one, Nat.mod_one, Nat.mul_zero,
      Nat.lt_one_iff, if_true, hpos]
    have hv : mkRat ((n * 2 ^ j : Nat) : Int) (2 ^ j) = (n : ℚ) := by
      rw [Rat.mkRat_eq_div]
      push_cast
      field_simp
    have hlt : ¬ ((2 : ℚ) ^ 1024 ≤ (n : ℚ)) := by
      rw [not_le]
      have h53 : (n : ℚ) < 2 ^ 53 := by exact_mod_cast h
      calc (n : ℚ) < 2 ^ 53 := h53
        _ ≤ 2 ^ 1024 := by norm_num
    rw [Int.mul_one, hv, if_neg hlt]

/-! ## Claims on the ping session -/

/-- C6 (as stated, refuted): with `count = 65537` the loop runs to completion
(every `sendto` fails at once) and the sequence numbers carried by the echo
requests are not `0, 1, ..., 65536`: the request of the last iteration carries
0 in its 16-bit field. -/
theorem ping_sequence_wraps_at_65536 :
    carriedSeqs (pingSession false false failingEnv 65537).2 ≠ List.range 65537 ∧
      (carriedSeqs (pingSession false false failingEnv 65537).2)[65536]? = some 0 := by
  have h : carriedSeqs (pingSession false false failingEnv 65537).2
      = (List.range' 0 65537).map (fun j => j % 65536) :=
    pingLoop_carried false false failingEnv 65537 0 initStats
  have h2 : (carriedSeqs (pingSession false false failingEnv 65537).2)[65536]? = some 0 := by
    rw [h, List.getElem?_map, List.getElem?_range' 0 1 (by norm_num : 65536 < 65537)]
    rfl
  refine ⟨?_, h2⟩
  intro heq
  rw [heq, List.getElem?_range (by norm_num : 65536 < 65537)] at h2
  exact absurd h2 (by decide)

/-- C6 (amended): for every `count` and every outcome of each probe, the echo
requests the ping loop builds are one per iteration `i = 0, 1, ..., count - 1`,
in that order, and the request of iteration `i` carries `i mod 65536` in its
16-bit sequence field; so the carried numbers are exactly
`0, 1, ..., count - 1` when `count <= 65536`. -/
theorem ping_carried_sequence_numbers (be is_ipv6 : Bool) (env : PingEnv) (count : Int) :
    carriedSeqs (pingSession be is_ipv6 env count).2
        = (List.range count.toNat).map (fun j => j % 65536) ∧
      (count ≤ 65536 →
        carriedSeqs (pingSession be is_ipv6 env count).2 = List.range count.toNat) := by
  have h : carriedSeqs (pingSession be is_ipv6 env count).2
      = (List.range count.toNat).map (fun j => j % 65536) := by
    unfold pingSession
    rw [pingLoop_carried, List.range_eq_range']
  refine ⟨h, fun hc => ?_⟩
  rw [h]
  have hmap : ∀ j ∈ List.range count.toNat, (fun j => j % 65536) j = id j := by
    intro j hj
    have hj' : j < count.toNat := List.mem_range.mp hj
    have : j < 65536 := by omega
    simp [Nat.mod_eq_of_lt this]
  rw [List.map_congr_left hmap, List.map_id]

/-- Witness of C6 (amended): four probes, sequence numbers 0 to 3. -/
theorem ping_carried_sequence_numbers_witness :
    carriedSeqs (pingSession false true answeringEnv 4).2 = List.range (4 : Int).toNat :=
  (ping_carried_sequence_numbers false true answeringEnv 4).2 (by decide)

/-- C8: for the final state of every ping session, the report is "No reply
received" if and only if `received = 0`, whatever was transmitted; no division
by zero is evaluated; and when statistics are printed `received > 0`. -/
theorem report_noReply_iff_nothing_received (be is_ipv6 : Bool) (env : PingEnv)
    (count : Int) :
    (report (pingSession be is_ipv6 env count).1 = some .noReply ↔
        (pingSession be is_ipv6 env count).1.received = 0) ∧
      report (pingSession be is_ipv6 env count).1 ≠ none ∧
      (∀ r, report (pingSession be is_ipv6 env count).1 = some r → r ≠ .noReply →
        0 < (pingSession be is_ipv6 env count).1.received) := by
  have hge : 0 ≤ (pingSession be is_ipv6 env count).1.received := by
    have := pingLoop_received be is_ipv6 env count.toNat 0 initStats
    exact this
  obtain ⟨hnone, hiff⟩ := report_cases (pingSession be is_ipv6 env count).1
  refine ⟨?_, hnone, ?_⟩
  · rw [hiff]; omega
  · intro r hr hne
    by_contra hpos
    have hle : (pingSession be is_ipv6 env count).1.received ≤ 0 := by omega
    rw [hiff.mpr hle] at hr
    exact hne (Option.some.inj hr).symm

end IcmpProbe
